import Mathlib

/-!
Shallow embedding of `src/color.js` of dicom-microscopy-viewer: the
`PaletteColorLookupTable` entity and its segmented-LUT decoder
(`_expandSegmentedLUTData`), together with theorems checking the
natural-language specification against this code.

JavaScript semantics captured here:
* typed-array stores convert through `ToUint8`/`ToUint16` (euclidean mod 2^w);
* reading a typed array out of range yields `undefined`, arithmetic with it
  yields `NaN`; both are modelled by `Option` (`none` = undefined/NaN);
* storing `NaN` into a typed array stores `0`;
* storing at an out-of-range index is silently ignored;
* `Math.round x` rounds half toward positive infinity: `⌊x + 1/2⌋`;
* the spec mandates real-number arithmetic for the Linear-segment step and for
  rescaling.  The values rounded are always of the form `p + num/den` with
  `p, num, den` integers, so the embedding computes the round exactly with
  integer floor division (`jsRoundFrac`); the lemma `jsRoundFrac_eq_jsRound`
  proves this agrees with `⌊x + 1/2⌋` over `ℚ`.
-/

namespace DicomColor

/-- Decidable equality for `Except` results, used to evaluate the embedding
on concrete inputs. -/
instance exceptDecEq {ε α : Type} [DecidableEq ε] [DecidableEq α] :
    DecidableEq (Except ε α) := fun a b =>
  match a, b with
  | .ok x, .ok y =>
    if h : x = y then isTrue (by rw [h]) else isFalse (by intro hc; cases hc; exact h rfl)
  | .error x, .error y =>
    if h : x = y then isTrue (by rw [h]) else isFalse (by intro hc; cases hc; exact h rfl)
  | .ok _, .error _ => isFalse (by intro hc; cases hc)
  | .error _, .ok _ => isFalse (by intro hc; cases hc)

/-- `ToUintN` of an integer: euclidean remainder modulo `2 ^ bits`
(JavaScript typed-array store conversion). -/
def jsToUintI (bits : ℕ) (v : ℤ) : ℕ := (v % (2 ^ bits : ℤ)).toNat

/-- `ToUintN` of a possibly-`NaN`/`undefined` value: `NaN` is stored as `0`. -/
def jsToUintO (bits : ℕ) (v : Option ℤ) : ℕ :=
  match v with
  | none => 0
  | some v => jsToUintI bits v

/-- `Math.round`: round half toward positive infinity. -/
def jsRound (x : ℚ) : ℤ := ⌊x + 1 / 2⌋

/-- `Math.round (p + num/den)` computed exactly with integer floor division
(for `0 < den`; the decoder only rounds when the denominator, a segment
length, is positive).  `jsRoundFrac_eq_jsRound` shows it equals
`jsRound ((p : ℚ) + (num : ℚ) / (den : ℚ))`. -/
def jsRoundFrac (p num den : ℤ) : ℤ :=
  (2 * p * den + 2 * num + den).fdiv (2 * den)

/-- Read `lut[j]` for an integer index: `undefined` (`none`) when out of range
or negative, as for a JavaScript typed array. -/
def getAtI (lut : List ℕ) (j : ℤ) : Option ℕ :=
  if 0 ≤ j then lut.get? j.toNat else none

/-- Write `lut[j] = w` for an integer index: silently ignored when the index is
negative or (via `List.set`) at least the length, as for a typed array. -/
def setAtI (lut : List ℕ) (j : ℤ) (w : ℕ) : List ℕ :=
  if 0 ≤ j then lut.set j.toNat w else lut

/-- The write loop of a Discrete (opcode 0) segment: `cnt` stores of the
already-converted value `w` at indices `start, start+1, ...`. -/
def fillConst (lut : List ℕ) (w : ℕ) (start : ℤ) (cnt : ℕ) : List ℕ :=
  match cnt with
  | 0 => lut
  | Nat.succ c => fillConst (setAtI lut start w) w (start + 1) c

/-- The write loop of a Linear (opcode 1) segment:
`lut[j] = Math.round(lut[j-1] + step)` for `cnt` indices starting at `start`,
where `step` is the fraction `num/den` (endpoint minus startpoint over
length).  A `none` step (NaN) or a `none` previous value makes the rounded
value `NaN`, stored as `0`. -/
def fillLinear (bits : ℕ) (lut : List ℕ) (step : Option (ℤ × ℤ)) (start : ℤ)
    (cnt : ℕ) : List ℕ :=
  match cnt with
  | 0 => lut
  | Nat.succ c =>
    let w : ℕ :=
      match getAtI lut (start - 1), step with
      | some p, some nd => jsToUintI bits (jsRoundFrac (p : ℤ) nd.1 nd.2)
      | _, _ => 0
    fillLinear bits (setAtI lut start w) step (start + 1) c

/-- Errors that can abort materialization of the table.  `noData` stands for
the `TypeError` raised when `_expandSegmentedLUTData` receives `undefined`;
`rangeError` for the `RangeError` of allocating a negative-sized array. -/
inductive MatError
  | noData
  | rangeError
  | indirectNotSupported
  | invalidSegment
  | lengthMismatch
deriving DecidableEq, Repr

/-- One iteration of the decode loop of `_expandSegmentedLUTData`
(src/color.js lines 251-283): dispatch on the opcode, consume the two
operands (`none` when the program ends early, i.e. `undefined`), and return
the new write cursor and buffer.  A `none` cursor models a `NaN` offset.
For a Linear segment the step is `(endpoint - startpoint) / length` by real
division, carried as the exact fraction `(endpoint - startpoint, length)`;
when `length = 0` no slot is written, so the step value is never used. -/
def segStep (bits : ℕ) (opcode : ℤ) (len val : Option ℤ) (offset : Option ℤ)
    (lut : List ℕ) : Except MatError (Option ℤ × List ℕ) :=
  if opcode = 0 then
    -- Discrete
    match offset, len with
    | some o, some L =>
      .ok (some (o + L), fillConst lut (jsToUintO bits val) o L.toNat)
    | _, _ => .ok (none, lut)
  else if opcode = 1 then
    -- Linear (interpolation)
    match offset, len with
    | some o, some L =>
      let step : Option (ℤ × ℤ) :=
        match val, getAtI lut (o - 1) with
        | some e, some s => some (e - (s : ℤ), L)
        | _, _ => none
      .ok (some (o + L), fillLinear bits lut step o L.toNat)
    | _, _ => .ok (none, lut)
  else if opcode = 2 then .error .indirectNotSupported
  else .error .invalidSegment

/-- The decode loop: the read cursor advances by three per segment
(`segmentedData[i++]`, `segmentedData[i++]`, `segmentedData[i]`, plus the
`for` increment), so opcodes sit at positions 0, 3, 6, ... of the program;
operands past the end of the program read as `undefined`. -/
def expandLoop (bits : ℕ) : List ℤ → Option ℤ → List ℕ → Except MatError (List ℕ)
  | [], _, lut => .ok lut
  | [c], off, lut => (segStep bits c none none off lut).map (fun r => r.2)
  | [c, l], off, lut => (segStep bits c (some l) none off lut).map (fun r => r.2)
  | c :: l :: v :: rest, off, lut =>
    match segStep bits c (some l) (some v) off lut with
    | .error e => .error e
    | .ok (off2, lut2) => expandLoop bits rest off2 lut2

/-- `PaletteColorLookupTable._expandSegmentedLUTData`: expand a segmented
program into a zero-initialized fixed-width buffer of `n` entries. -/
def _expandSegmentedLUTData (bits n : ℕ) (seg : List ℤ) :
    Except MatError (List ℕ) :=
  expandLoop bits seg (some 0) (List.replicate n 0)

/-- A Palette Color Lookup Table Descriptor: the three-element array
`[numberOfEntries, firstValueMapped, bitsPerEntry]`. -/
structure Descriptor where
  entries : ℤ
  firstValueMapped : ℤ
  bitsPerEntry : ℤ
deriving DecidableEq, Repr

/-- The constructor arguments of `PaletteColorLookupTable` (the `uid` is an
opaque string irrelevant to every claim and omitted).  `none` models a
`null`/`undefined` channel-data argument. -/
structure LUTInput where
  redDescriptor : Descriptor
  greenDescriptor : Descriptor
  blueDescriptor : Descriptor
  redData : Option (List ℤ)
  greenData : Option (List ℤ)
  blueData : Option (List ℤ)
  redSegmentedData : Option (List ℤ)
  greenSegmentedData : Option (List ℤ)
  blueSegmentedData : Option (List ℤ)
deriving DecidableEq, Repr

/-- The private attributes a successfully constructed
`PaletteColorLookupTable` freezes (src/color.js lines 118-245). -/
structure PCLUT where
  numberOfEntries : ℤ
  firstValueMapped : ℤ
  bitsPerEntry : ℤ
  redData : Option (List ℤ)
  greenData : Option (List ℤ)
  blueData : Option (List ℤ)
  redSegmentedData : Option (List ℤ)
  greenSegmentedData : Option (List ℤ)
  blueSegmentedData : Option (List ℤ)
deriving DecidableEq, Repr

/-- The validation errors the constructor can throw, in source order. -/
inductive ConstructError
  | firstDescriptorMismatch
  | secondDescriptorMismatch
  | thirdDescriptorMismatch
  | unsupportedBitsPerEntry
  | redDataConflict
  | redDataMissing
  | redDataWrongLength
  | greenDataConflict
  | greenDataMissing
  | greenDataWrongLength
  | blueDataConflict
  | blueDataMissing
  | blueDataWrongLength
deriving DecidableEq, Repr

/-- Number of LUT entries from the first descriptor value: `0` is the
sentinel for `2^16`. -/
def nEntries (e : ℤ) : ℤ := if e = 0 then 2 ^ 16 else e

/-- Whether supplied explicit channel data fails the
`length !== numberOfEntries` check. -/
def explicitLengthBad (d? : Option (List ℤ)) (n : ℤ) : Bool :=
  match d? with
  | some d => decide (¬((d.length : ℤ) = n))
  | none => false

/-- The attribute record a successful construction freezes. -/
def mkPCLUT (inp : LUTInput) : PCLUT :=
  { numberOfEntries := nEntries inp.redDescriptor.entries
    firstValueMapped := inp.redDescriptor.firstValueMapped
    bitsPerEntry := inp.redDescriptor.bitsPerEntry
    redData := inp.redData
    greenData := inp.greenData
    blueData := inp.blueData
    redSegmentedData := inp.redSegmentedData
    greenSegmentedData := inp.greenSegmentedData
    blueSegmentedData := inp.blueSegmentedData }

/-- The descriptor checks of the constructor (src/color.js lines 120-171):
the three descriptors must agree componentwise and the common bits-per-entry
must be 8 or 16. -/
def checkDescriptors (inp : LUTInput) : Except ConstructError Unit :=
  if ¬(inp.redDescriptor.entries = inp.greenDescriptor.entries
      ∧ inp.greenDescriptor.entries = inp.blueDescriptor.entries) then
    .error .firstDescriptorMismatch
  else if ¬(inp.redDescriptor.firstValueMapped = inp.greenDescriptor.firstValueMapped
      ∧ inp.greenDescriptor.firstValueMapped = inp.blueDescriptor.firstValueMapped) then
    .error .secondDescriptorMismatch
  else if ¬(inp.redDescriptor.bitsPerEntry = inp.greenDescriptor.bitsPerEntry
      ∧ inp.greenDescriptor.bitsPerEntry = inp.blueDescriptor.bitsPerEntry) then
    .error .thirdDescriptorMismatch
  else if ¬(inp.redDescriptor.bitsPerEntry = 8 ∨ inp.redDescriptor.bitsPerEntry = 16) then
    .error .unsupportedBitsPerEntry
  else .ok ()

/-- The red-channel data checks (src/color.js lines 173-190): not both,
not neither, and explicit data must have `numberOfEntries` entries. -/
def checkRed (inp : LUTInput) (n : ℤ) : Except ConstructError Unit :=
  if inp.redSegmentedData.isSome ∧ inp.redData.isSome then .error .redDataConflict
  else if inp.redSegmentedData.isNone ∧ inp.redData.isNone then .error .redDataMissing
  else if explicitLengthBad inp.redData n then .error .redDataWrongLength
  else .ok ()

/-- The green-channel data checks (src/color.js lines 194-211). -/
def checkGreen (inp : LUTInput) (n : ℤ) : Except ConstructError Unit :=
  if inp.greenSegmentedData.isSome ∧ inp.greenData.isSome then .error .greenDataConflict
  else if inp.greenSegmentedData.isNone ∧ inp.greenData.isNone then .error .greenDataMissing
  else if explicitLengthBad inp.greenData n then .error .greenDataWrongLength
  else .ok ()

/-- The blue-channel data checks (src/color.js lines 215-232).  The source
tests `blueSegmentedData != null && blueData != null` twice (lines 215 and
220), so the blue missing-data branch is dead code and a blue channel with
neither data source passes construction. -/
def checkBlue (inp : LUTInput) (n : ℤ) : Except ConstructError Unit :=
  if inp.blueSegmentedData.isSome ∧ inp.blueData.isSome then .error .blueDataConflict
  -- dead branch: same condition as above, preserved as in the source
  else if inp.blueSegmentedData.isSome ∧ inp.blueData.isSome then .error .blueDataMissing
  else if explicitLengthBad inp.blueData n then .error .blueDataWrongLength
  else .ok ()

/-- The `PaletteColorLookupTable` constructor (src/color.js lines 106-246):
run the four check blocks in source order, then freeze the attributes. -/
def construct (inp : LUTInput) : Except ConstructError PCLUT :=
  match checkDescriptors inp with
  | .error e => .error e
  | .ok _ =>
  match checkRed inp (nEntries inp.redDescriptor.entries) with
  | .error e => .error e
  | .ok _ =>
  match checkGreen inp (nEntries inp.redDescriptor.entries) with
  | .error e => .error e
  | .ok _ =>
  match checkBlue inp (nEntries inp.redDescriptor.entries) with
  | .error e => .error e
  | .ok _ => .ok (mkPCLUT inp)

/-- The storage width in bits of the `DataType` the entity selects:
`Uint8Array` when `bitsPerEntry === 8`, else `Uint16Array`
(src/color.js lines 236-240). -/
def dataWidth (bits : ℤ) : ℕ := if bits = 8 then 8 else 16

/-- Modelled from the spec: the external `rescale` of `./utils.js` is not in
the provided sources; spec section 6 defines
`Rescale(value, inMin, inMax, outMin, outMax) =
outMin + (value - inMin) * (outMax - outMin) / (inMax - inMin)`. -/
def rescaleQ (v inMin inMax outMin outMax : ℚ) : ℚ :=
  outMin + (v - inMin) * (outMax - outMin) / (inMax - inMin)

/-- One colour component of the 16-bit branch of the `data` getter:
`Math.round(rescale(lut[j], 0, 2^16 - 1, 0, 2^8 - 1))`, i.e. the round of
`lut[j] * 255 / 65535`, `none` (`NaN`) when `j` is out of range.  The exact
integer rounding agrees with `jsRound (rescaleQ v 0 65535 0 255)` by
`sample16_eq_roundRescale`. -/
def sample16 (lut : List ℕ) (j : ℕ) : Option ℤ :=
  (lut.get? j).map (fun v => jsRoundFrac 0 ((v : ℤ) * 255) 65535)

/-- An RGB triplet of the materialized table: each component is an integer or
`none` for `NaN`. -/
abbrev Triplet := Option ℤ × Option ℤ × Option ℤ

/-- The materialized table: a plain array of RGB triplets. -/
abbrev Table := List Triplet

/-- Obtain one channel's flat fixed-width array inside the `data` getter:
explicit data is reinterpreted through the typed-array constructor
(`new DataType(redData)`), otherwise the segmented data is expanded.  A
channel with neither source reaches `_expandSegmentedLUTData (undefined)`,
which throws (`noData`); allocating the buffer for a negative
`numberOfEntries` throws (`rangeError`). -/
def materializeChannel (bits n : ℤ) (dat sdat : Option (List ℤ)) :
    Except MatError (List ℕ) :=
  match dat with
  | some d => .ok (d.map (jsToUintI (dataWidth bits)))
  | none =>
    if n < 0 then .error .rangeError
    else
      match sdat with
      | some s => _expandSegmentedLUTData (dataWidth bits) n.toNat s
      | none => .error .noData

/-- The body of the `data` getter on a cache miss (src/color.js lines
302-368): materialize the three channels, compare lengths (the source
compares the set `{redLUT.length, blueLUT.length, blueLUT.length}`, so only
red and blue are inspected, lines 330-334), then either resample 16-bit data
down to 256 entries or zip the 8-bit arrays directly. -/
def getTableFresh (t : PCLUT) : Except MatError Table :=
  match materializeChannel t.bitsPerEntry t.numberOfEntries t.redData t.redSegmentedData with
  | .error e => .error e
  | .ok redLUT =>
  match materializeChannel t.bitsPerEntry t.numberOfEntries t.greenData t.greenSegmentedData with
  | .error e => .error e
  | .ok greenLUT =>
  match materializeChannel t.bitsPerEntry t.numberOfEntries t.blueData t.blueSegmentedData with
  | .error e => .error e
  | .ok blueLUT =>
    if redLUT.length = blueLUT.length then
      if t.bitsPerEntry = 16 then
        .ok ((List.range 256).map (fun i =>
          (sample16 redLUT (i * 256), sample16 greenLUT (i * 256),
            sample16 blueLUT (i * 256))))
      else
        if t.numberOfEntries < 0 then .error .rangeError
        else
          .ok ((List.range t.numberOfEntries.toNat).map (fun i =>
            ((redLUT.get? i).map (fun v => (v : ℤ)),
             (greenLUT.get? i).map (fun v => (v : ℤ)),
             (blueLUT.get? i).map (fun v => (v : ℤ)))))
    else .error .lengthMismatch

/-- The `data` getter with its cache (`this[_attrs].data`): a hit returns the
cached table unchanged; a miss computes the table and caches it; a failure
leaves the cache unset. -/
def getTableCached (t : PCLUT) (cache : Option Table) :
    Except MatError Table × Option Table :=
  match cache with
  | some d => (.ok d, some d)
  | none =>
    match getTableFresh t with
    | .ok d => (.ok d, some d)
    | .error e => (.error e, none)

/-- A table component is a proper integer in the display range `[0, 255]`
(in particular not `NaN`). -/
def inRGB (c : Option ℤ) : Prop := c ≠ none ∧ 0 ≤ c.getD 0 ∧ c.getD 0 ≤ 255

/-- Every component of every triplet of a successful materialization result
lies in `[0, 255]`; vacuous on failure. -/
def allInRange : Except MatError Table → Prop
  | .ok tbl => ∀ trip ∈ tbl, inRGB trip.1 ∧ inRGB trip.2.1 ∧ inRGB trip.2.2
  | .error _ => True

/-- A successful channel materialization has exactly `n` entries; vacuous on
failure. -/
def channelLenOk : Except MatError (List ℕ) → ℤ → Prop
  | .ok a, n => (a.length : ℤ) = n
  | .error _, _ => True

/-- Side condition for the Linear-segment recurrence: the value about to be
stored (the round of the previous entry plus the step `nd.1 / nd.2`) fits in
the `bits`-wide slot, so the typed-array store does not wrap. -/
def roundFitsB (bits : ℕ) (nd : ℤ × ℤ) (x : Option ℕ) : Bool :=
  match x with
  | none => true
  | some p =>
    decide (0 ≤ jsRoundFrac (p : ℤ) nd.1 nd.2
      ∧ jsRoundFrac (p : ℤ) nd.1 nd.2 < (2 ^ bits : ℤ))

section Lemmas

/-- The exact integer rounding of `p + num/den` agrees with
`Math.round = ⌊· + 1/2⌋` over `ℚ` whenever the denominator is positive. -/
theorem jsRoundFrac_eq_jsRound (p num den : ℤ) (hd : 0 < den) :
    jsRoundFrac p num den = jsRound ((p : ℚ) + (num : ℚ) / (den : ℚ)) := by
  unfold jsRoundFrac jsRound
  have hd0 : (den : ℚ) ≠ 0 := Int.cast_ne_zero.mpr hd.ne'
  have hA : (p : ℚ) + (num : ℚ) / (den : ℚ) + 1 / 2
      = ((2 * p * den + 2 * num + den : ℤ) : ℚ) / (((2 * den).toNat : ℕ) : ℚ) := by
    have h2 : (((2 * den).toNat : ℕ) : ℚ) = ((2 * den : ℤ) : ℚ) := by
      norm_cast
      omega
    rw [h2]
    push_cast
    field_simp
    ring
  rw [hA, Rat.floor_intCast_div_natCast, Int.fdiv_eq_ediv _ (by omega)]
  congr 1
  omega

/-- The 16-bit resampling component equals the round of the spec's `Rescale`
from `[0, 65535]` to `[0, 255]`. -/
theorem jsRoundFrac_eq_roundRescale (v : ℕ) :
    jsRoundFrac 0 ((v : ℤ) * 255) 65535 = jsRound (rescaleQ (v : ℚ) 0 65535 0 255) := by
  rw [jsRoundFrac_eq_jsRound _ _ _ (by norm_num)]
  unfold rescaleQ
  congr 1
  push_cast
  ring

theorem setAtI_length (lut : List ℕ) (j : ℤ) (w : ℕ) :
    (setAtI lut j w).length = lut.length := by
  unfold setAtI
  split <;> simp

theorem fillConst_length (w : ℕ) (cnt : ℕ) :
    ∀ (start : ℤ) (lut : List ℕ), (fillConst lut w start cnt).length = lut.length := by
  induction cnt with
  | zero => intro start lut; rfl
  | succ c ih => intro start lut; rw [fillConst, ih, setAtI_length]

/-- Unfold one iteration of `fillLinear`. -/
theorem fillLinear_succ (bits : ℕ) (step : Option (ℤ × ℤ)) (c : ℕ)
    (start : ℤ) (lut : List ℕ) :
    fillLinear bits lut step start (Nat.succ c)
      = fillLinear bits
          (setAtI lut start
            (match getAtI lut (start - 1), step with
              | some p, some nd => jsToUintI bits (jsRoundFrac (p : ℤ) nd.1 nd.2)
              | _, _ => 0))
          step (start + 1) c := rfl

theorem fillLinear_length (bits : ℕ) (step : Option (ℤ × ℤ)) (cnt : ℕ) :
    ∀ (start : ℤ) (lut : List ℕ),
      (fillLinear bits lut step start cnt).length = lut.length := by
  induction cnt with
  | zero => intro start lut; rfl
  | succ c ih => intro start lut; rw [fillLinear_succ, ih, setAtI_length]

theorem segStep_ok_length {bits : ℕ} {c : ℤ} {len val : Option ℤ}
    {off : Option ℤ} {lut : List ℕ} {r : Option ℤ × List ℕ}
    (h : segStep bits c len val off lut = .ok r) : r.2.length = lut.length := by
  unfold segStep at h
  split_ifs at h
  · split at h <;> (injection h with h; subst h)
    · exact fillConst_length ..
    · rfl
  · split at h <;> (injection h with h; subst h)
    · exact fillLinear_length ..
    · rfl

theorem expandLoop_ok_length (bits : ℕ) :
    ∀ (prog : List ℤ) (off : Option ℤ) (lut r : List ℕ),
      expandLoop bits prog off lut = .ok r → r.length = lut.length
  | [], _, lut, r, h => by
    injection h with h
    rw [← h]
  | [c], off, lut, r, h => by
    rw [expandLoop] at h
    cases hs : segStep bits c none none off lut with
    | error e => rw [hs] at h; exact absurd h (by simp [Except.map])
    | ok p =>
      rw [hs] at h
      injection h with h
      rw [← h]
      exact segStep_ok_length hs
  | [c, l], off, lut, r, h => by
    rw [expandLoop] at h
    cases hs : segStep bits c (some l) none off lut with
    | error e => rw [hs] at h; exact absurd h (by simp [Except.map])
    | ok p =>
      rw [hs] at h
      injection h with h
      rw [← h]
      exact segStep_ok_length hs
  | c :: l :: v :: rest, off, lut, r, h => by
    rw [expandLoop] at h
    cases hs : segStep bits c (some l) (some v) off lut with
    | error e => rw [hs] at h; exact absurd h (by simp)
    | ok p =>
      obtain ⟨off2, lut2⟩ := p
      rw [hs] at h
      rw [expandLoop_ok_length bits rest off2 lut2 r h]
      exact segStep_ok_length hs

theorem expand_ok_length {bits n : ℕ} {seg : List ℤ} {lut : List ℕ}
    (h : _expandSegmentedLUTData bits n seg = .ok lut) : lut.length = n := by
  rw [expandLoop_ok_length bits seg (some 0) (List.replicate n 0) lut h]
  exact List.length_replicate n 0

/-- A passed length check means any explicit data has exactly `n` entries. -/
theorem explicitLengthBad_false {d? : Option (List ℤ)} {n : ℤ}
    (h : ¬(explicitLengthBad d? n = true)) :
    ∀ d, d? = some d → (d.length : ℤ) = n := by
  intro d hd
  subst hd
  by_contra hne
  exact h (by simp [explicitLengthBad, hne])

theorem checkDescriptors_ok {inp : LUTInput}
    (h : checkDescriptors inp = .ok ()) :
    inp.redDescriptor.bitsPerEntry = 8 ∨ inp.redDescriptor.bitsPerEntry = 16 := by
  unfold checkDescriptors at h
  split_ifs at h with h1 h2 h3 h4
  exact h4

theorem checkRed_ok {inp : LUTInput} {n : ℤ} (h : checkRed inp n = .ok ()) :
    (∀ d, inp.redData = some d → (d.length : ℤ) = n)
    ∧ ¬(inp.redData = none ∧ inp.redSegmentedData = none) := by
  unfold checkRed at h
  split_ifs at h with h1 h2 h3
  refine ⟨explicitLengthBad_false h3, ?_⟩
  intro ⟨ha, hb⟩
  exact h2 ⟨Option.isNone_iff_eq_none.mpr hb, Option.isNone_iff_eq_none.mpr ha⟩

theorem checkGreen_ok {inp : LUTInput} {n : ℤ} (h : checkGreen inp n = .ok ()) :
    (∀ d, inp.greenData = some d → (d.length : ℤ) = n)
    ∧ ¬(inp.greenData = none ∧ inp.greenSegmentedData = none) := by
  unfold checkGreen at h
  split_ifs at h with h1 h2 h3
  refine ⟨explicitLengthBad_false h3, ?_⟩
  intro ⟨ha, hb⟩
  exact h2 ⟨Option.isNone_iff_eq_none.mpr hb, Option.isNone_iff_eq_none.mpr ha⟩

theorem checkBlue_ok {inp : LUTInput} {n : ℤ} (h : checkBlue inp n = .ok ()) :
    ∀ d, inp.blueData = some d → (d.length : ℤ) = n := by
  unfold checkBlue at h
  split_ifs at h with h1 h2
  exact explicitLengthBad_false h2

theorem jsToUintI_lt (bits : ℕ) (v : ℤ) : jsToUintI bits v < 2 ^ bits := by
  unfold jsToUintI
  have h2 : (0 : ℤ) < 2 ^ bits := by positivity
  have ha := Int.emod_nonneg v (ne_of_gt h2)
  have hb := Int.emod_lt_of_pos v h2
  have hc : ((2 ^ bits : ℕ) : ℤ) = (2 ^ bits : ℤ) := by push_cast; ring
  omega

theorem jsToUintO_lt (bits : ℕ) (v : Option ℤ) : jsToUintO bits v < 2 ^ bits := by
  cases v with
  | none => exact Nat.pos_pow_of_pos bits (by norm_num)
  | some v => exact jsToUintI_lt bits v

theorem mem_setAtI {lut : List ℕ} {j : ℤ} {w x : ℕ}
    (h : x ∈ setAtI lut j w) : x = w ∨ x ∈ lut := by
  unfold setAtI at h
  split at h
  · rcases List.mem_or_eq_of_mem_set h with hx | hx
    · exact Or.inr hx
    · exact Or.inl hx
  · exact Or.inr h

theorem fillConst_bound {bits : ℕ} {w : ℕ} (hw : w < 2 ^ bits) (cnt : ℕ) :
    ∀ (start : ℤ) (lut : List ℕ), (∀ x ∈ lut, x < 2 ^ bits) →
      ∀ x ∈ fillConst lut w start cnt, x < 2 ^ bits := by
  induction cnt with
  | zero => intro start lut hl x hx; exact hl x hx
  | succ c ih =>
    intro start lut hl x hx
    refine ih (start + 1) (setAtI lut start w) ?_ x hx
    intro y hy
    rcases mem_setAtI hy with hy | hy
    · rw [hy]; exact hw
    · exact hl y hy

theorem fillLinear_bound {bits : ℕ} {step : Option (ℤ × ℤ)} (cnt : ℕ) :
    ∀ (start : ℤ) (lut : List ℕ), (∀ x ∈ lut, x < 2 ^ bits) →
      ∀ x ∈ fillLinear bits lut step start cnt, x < 2 ^ bits := by
  induction cnt with
  | zero => intro start lut hl x hx; exact hl x hx
  | succ c ih =>
    intro start lut hl x hx
    rw [fillLinear_succ] at hx
    refine ih (start + 1) _ ?_ x hx
    intro y hy
    rcases mem_setAtI hy with hy | hy
    · rw [hy]
      split
      · exact jsToUintI_lt ..
      · exact Nat.pos_pow_of_pos bits (by norm_num)
    · exact hl y hy

theorem segStep_ok_bound {bits : ℕ} {c : ℤ} {len val : Option ℤ}
    {off : Option ℤ} {lut : List ℕ} {r : Option ℤ × List ℕ}
    (hl : ∀ x ∈ lut, x < 2 ^ bits)
    (h : segStep bits c len val off lut = .ok r) :
    ∀ x ∈ r.2, x < 2 ^ bits := by
  unfold segStep at h
  split_ifs at h
  · split at h <;> (injection h with h; subst h)
    · exact fillConst_bound (jsToUintO_lt ..) _ _ _ hl
    · exact hl
  · split at h <;> (injection h with h; subst h)
    · exact fillLinear_bound _ _ _ hl
    · exact hl

theorem expandLoop_ok_bound (bits : ℕ) :
    ∀ (prog : List ℤ) (off : Option ℤ) (lut r : List ℕ),
      (∀ x ∈ lut, x < 2 ^ bits) → expandLoop bits prog off lut = .ok r →
      ∀ x ∈ r, x < 2 ^ bits
  | [], _, lut, r, hl, h => by
    injection h with h
    rw [← h]
    exact hl
  | [c], off, lut, r, hl, h => by
    rw [expandLoop] at h
    cases hs : segStep bits c none none off lut with
    | error e => rw [hs] at h; exact absurd h (by simp [Except.map])
    | ok p =>
      rw [hs] at h
      injection h with h
      rw [← h]
      exact segStep_ok_bound hl hs
  | [c, l], off, lut, r, hl, h => by
    rw [expandLoop] at h
    cases hs : segStep bits c (some l) none off lut with
    | error e => rw [hs] at h; exact absurd h (by simp [Except.map])
    | ok p =>
      rw [hs] at h
      injection h with h
      rw [← h]
      exact segStep_ok_bound hl hs
  | c :: l :: v :: rest, off, lut, r, hl, h => by
    rw [expandLoop] at h
    cases hs : segStep bits c (some l) (some v) off lut with
    | error e => rw [hs] at h; exact absurd h (by simp)
    | ok p =>
      obtain ⟨off2, lut2⟩ := p
      rw [hs] at h
      exact expandLoop_ok_bound bits rest off2 lut2 r (segStep_ok_bound hl hs) h

/-- Every entry of a successfully materialized channel fits the storage
width selected from `bitsPerEntry`. -/
theorem materializeChannel_ok_bound {bits n : ℤ} {dat sdat : Option (List ℤ)}
    {a : List ℕ} (h : materializeChannel bits n dat sdat = .ok a) :
    ∀ x ∈ a, x < 2 ^ dataWidth bits := by
  cases dat with
  | some d =>
    simp only [materializeChannel] at h
    injection h with h
    rw [← h]
    intro x hx
    rcases List.mem_map.mp hx with ⟨v, _, hv⟩
    rw [← hv]
    exact jsToUintI_lt ..
  | none =>
    simp only [materializeChannel] at h
    split_ifs at h with hneg
    cases sdat with
    | some s =>
      refine expandLoop_ok_bound _ _ _ _ _ ?_ h
      intro x hx
      rw [(List.mem_replicate.mp hx).2]
      exact Nat.pos_pow_of_pos _ (by norm_num)
    | none => exact Except.noConfusion h

/-- Bounds for the resampled 16-bit component: rounding
`v * 255 / 65535` for `v < 2^16` lands in `[0, 255]`. -/
theorem sample16_ok_bound {lut : List ℕ} (hl : ∀ x ∈ lut, x < 2 ^ 16)
    {j : ℕ} {r : ℤ} (h : sample16 lut j = some r) : 0 ≤ r ∧ r ≤ 255 := by
  unfold sample16 at h
  cases hv : lut.get? j with
  | none => rw [hv] at h; exact Option.noConfusion h
  | some v =>
    rw [hv] at h
    injection h with h
    have hvb : v < 2 ^ 16 := hl v (List.get?_mem hv)
    norm_num at hvb
    rw [← h]
    show 0 ≤ jsRoundFrac 0 ((v : ℤ) * 255) 65535
      ∧ jsRoundFrac 0 ((v : ℤ) * 255) 65535 ≤ 255
    unfold jsRoundFrac
    rw [Int.fdiv_eq_ediv _ (by norm_num)]
    omega

theorem segStep_error_cases {bits : ℕ} {c : ℤ} {len val : Option ℤ}
    {off : Option ℤ} {lut : List ℕ} {e : MatError}
    (h : segStep bits c len val off lut = .error e) :
    e = .indirectNotSupported ∨ e = .invalidSegment := by
  unfold segStep at h
  split_ifs at h with h0 h1 h2
  · split at h <;> exact Except.noConfusion h
  · split at h <;> exact Except.noConfusion h
  · injection h with h; exact Or.inl h.symm
  · injection h with h; exact Or.inr h.symm

theorem expandLoop_error_cases (bits : ℕ) :
    ∀ (prog : List ℤ) (off : Option ℤ) (lut : List ℕ) (e : MatError),
      expandLoop bits prog off lut = .error e →
      e = .indirectNotSupported ∨ e = .invalidSegment
  | [], _, lut, e, h => Except.noConfusion h
  | [c], off, lut, e, h => by
    rw [expandLoop] at h
    cases hs : segStep bits c none none off lut with
    | error e2 =>
      rw [hs] at h
      injection h with h
      rw [← h]
      exact segStep_error_cases hs
    | ok p => rw [hs] at h; exact Except.noConfusion h
  | [c, l], off, lut, e, h => by
    rw [expandLoop] at h
    cases hs : segStep bits c (some l) none off lut with
    | error e2 =>
      rw [hs] at h
      injection h with h
      rw [← h]
      exact segStep_error_cases hs
    | ok p => rw [hs] at h; exact Except.noConfusion h
  | c :: l :: v :: rest, off, lut, e, h => by
    rw [expandLoop] at h
    cases hs : segStep bits c (some l) (some v) off lut with
    | error e2 =>
      rw [hs] at h
      injection h with h
      rw [← h]
      exact segStep_error_cases hs
    | ok p =>
      obtain ⟨off2, lut2⟩ := p
      rw [hs] at h
      exact expandLoop_error_cases bits rest off2 lut2 e h

/-- A channel materialization that succeeds returns exactly `n` entries,
provided any explicit data passed the constructor's length check. -/
theorem materializeChannel_ok_length {bits n : ℤ} {dat sdat : Option (List ℤ)}
    {a : List ℕ} (hlen : ∀ d, dat = some d → (d.length : ℤ) = n)
    (h : materializeChannel bits n dat sdat = .ok a) : (a.length : ℤ) = n := by
  cases dat with
  | some d =>
    simp only [materializeChannel] at h
    injection h with h
    rw [← h, List.length_map]
    exact hlen d rfl
  | none =>
    simp only [materializeChannel] at h
    split_ifs at h with hneg
    cases sdat with
    | some s =>
      have hl := expand_ok_length h
      omega
    | none => exact Except.noConfusion h

/-- A channel materialization never fails with the length-mismatch error
(its errors are `noData`, `rangeError`, or the two decoder opcode errors). -/
theorem materializeChannel_ne_lengthMismatch {bits n : ℤ}
    {dat sdat : Option (List ℤ)} :
    materializeChannel bits n dat sdat ≠ .error .lengthMismatch := by
  intro h
  cases dat with
  | some d => simp only [materializeChannel] at h; exact Except.noConfusion h
  | none =>
    simp only [materializeChannel] at h
    split_ifs at h with hneg
    · injection h with h; exact MatError.noConfusion h
    cases sdat with
    | some s =>
      rcases expandLoop_error_cases _ _ _ _ _ h with h2 | h2 <;> exact MatError.noConfusion h2
    | none => injection h with h; exact MatError.noConfusion h

/-- Inversion of a successful construction: the frozen attributes are
`mkPCLUT inp` and every passed validation yields its invariant. -/
theorem construct_ok_spec {inp : LUTInput} {t : PCLUT}
    (h : construct inp = .ok t) :
    t = mkPCLUT inp
    ∧ (inp.redDescriptor.bitsPerEntry = 8 ∨ inp.redDescriptor.bitsPerEntry = 16)
    ∧ (∀ d, inp.redData = some d → (d.length : ℤ) = nEntries inp.redDescriptor.entries)
    ∧ (∀ d, inp.greenData = some d → (d.length : ℤ) = nEntries inp.redDescriptor.entries)
    ∧ (∀ d, inp.blueData = some d → (d.length : ℤ) = nEntries inp.redDescriptor.entries)
    ∧ ¬(inp.redData = none ∧ inp.redSegmentedData = none)
    ∧ ¬(inp.greenData = none ∧ inp.greenSegmentedData = none) := by
  unfold construct at h
  cases hd : checkDescriptors inp with
  | error e => rw [hd] at h; exact Except.noConfusion h
  | ok u =>
  cases hr : checkRed inp (nEntries inp.redDescriptor.entries) with
  | error e => rw [hd, hr] at h; exact Except.noConfusion h
  | ok u2 =>
  cases hg : checkGreen inp (nEntries inp.redDescriptor.entries) with
  | error e => rw [hd, hr, hg] at h; exact Except.noConfusion h
  | ok u3 =>
  cases hb : checkBlue inp (nEntries inp.redDescriptor.entries) with
  | error e => rw [hd, hr, hg, hb] at h; exact Except.noConfusion h
  | ok u4 =>
    rw [hd, hr, hg, hb] at h
    injection h with h
    obtain ⟨⟩ := u; obtain ⟨⟩ := u2; obtain ⟨⟩ := u3; obtain ⟨⟩ := u4
    exact ⟨h.symm, checkDescriptors_ok hd, (checkRed_ok hr).1, (checkGreen_ok hg).1,
      checkBlue_ok hb, (checkRed_ok hr).2, (checkGreen_ok hg).2⟩

theorem setAtI_get?_ne {lut : List ℕ} (start : ℤ) (w : ℕ) (j : ℕ)
    (hj : (j : ℤ) ≠ start) : (setAtI lut start w).get? j = lut.get? j := by
  unfold setAtI
  split_ifs with h0
  · refine List.get?_set_ne _ _ ?_
    omega
  · rfl

theorem setAtI_get?_self {lut : List ℕ} {start : ℕ} {w : ℕ}
    (hlt : start < lut.length) :
    (setAtI lut (start : ℤ) w).get? start = some w := by
  unfold setAtI
  rw [if_pos (by omega : (0 : ℤ) ≤ (start : ℤ))]
  rw [show ((start : ℤ)).toNat = start from by omega]
  exact List.get?_set_eq_of_lt w hlt

/-- Entries strictly below the write window of `fillLinear` are untouched. -/
theorem fillLinear_stable (bits : ℕ) (step : Option (ℤ × ℤ)) (cnt : ℕ) :
    ∀ (start : ℤ) (lut : List ℕ) (j : ℕ), (j : ℤ) < start →
      (fillLinear bits lut step start cnt).get? j = lut.get? j := by
  induction cnt with
  | zero => intro start lut j hj; rfl
  | succ c ih =>
    intro start lut j hj
    rw [fillLinear_succ]
    rw [ih (start + 1) _ j (by omega)]
    exact setAtI_get?_ne start _ j (by omega)

/-- The Linear-segment write loop satisfies the iterative recurrence: for
every index `start + k` of the window, the stored entry is the width-reduced
round of the *previously stored* entry plus the step fraction. -/
theorem fillLinear_spec (bits : ℕ) (nd : ℤ × ℤ) :
    ∀ (cnt : ℕ) (start : ℕ) (lut : List ℕ), 1 ≤ start → start + cnt ≤ lut.length →
      ∀ k, k < cnt →
        ∃ p, (fillLinear bits lut (some nd) (start : ℤ) cnt).get? (start + k - 1) = some p
          ∧ (fillLinear bits lut (some nd) (start : ℤ) cnt).get? (start + k)
              = some (jsToUintI bits (jsRoundFrac (p : ℤ) nd.1 nd.2)) := by
  intro cnt
  induction cnt with
  | zero => intro start lut hstart hlen k hk; exact absurd hk (Nat.not_lt_zero k)
  | succ c ih =>
    intro start lut hstart hlen k hk
    have hget : getAtI lut ((start : ℤ) - 1) = lut.get? (start - 1) := by
      unfold getAtI
      rw [if_pos (by omega)]
      congr 1
      omega
    obtain ⟨p0, hp0⟩ : ∃ p0, lut.get? (start - 1) = some p0 :=
      ⟨_, List.get?_eq_get (by omega)⟩
    have hw : fillLinear bits lut (some nd) (start : ℤ) (Nat.succ c)
        = fillLinear bits
            (setAtI lut (start : ℤ) (jsToUintI bits (jsRoundFrac ((p0 : ℕ) : ℤ) nd.1 nd.2)))
            (some nd) ((start : ℤ) + 1) c := by
      rw [fillLinear_succ, hget, hp0]
    match k with
    | 0 =>
      refine ⟨p0, ?_, ?_⟩
      · rw [hw]
        rw [show start + 0 - 1 = start - 1 from by omega]
        rw [fillLinear_stable bits (some nd) c ((start : ℤ) + 1) _ (start - 1) (by omega)]
        rw [setAtI_get?_ne (start : ℤ) _ (start - 1) (by omega)]
        exact hp0
      · rw [hw]
        rw [show start + 0 = start from by omega]
        rw [fillLinear_stable bits (some nd) c ((start : ℤ) + 1) _ start (by omega)]
        exact setAtI_get?_self (by omega)
    | Nat.succ k' =>
      have ih' := ih (start + 1)
        (setAtI lut (start : ℤ) (jsToUintI bits (jsRoundFrac ((p0 : ℕ) : ℤ) nd.1 nd.2)))
        (by omega) (by rw [setAtI_length]; omega) k' (by omega)
      rw [show ((start + 1 : ℕ) : ℤ) = (start : ℤ) + 1 from by push_cast; ring] at ih'
      obtain ⟨p, h1, h2⟩ := ih'
      refine ⟨p, ?_, ?_⟩
      · rw [hw]
        rw [show start + (k' + 1) - 1 = start + 1 + k' - 1 from by omega]
        exact h1
      · rw [hw]
        rw [show start + (k' + 1) = start + 1 + k' from by omega]
        exact h2

/-- A rounded value that fits the storage width is stored unchanged. -/
theorem jsToUintI_of_fits {bits : ℕ} {r : ℤ} (h0 : 0 ≤ r) (h1 : r < 2 ^ bits) :
    ((jsToUintI bits r : ℕ) : ℤ) = r := by
  unfold jsToUintI
  have hc : ((2 ^ bits : ℕ) : ℤ) = (2 ^ bits : ℤ) := by push_cast; ring
  rw [Int.emod_eq_of_lt h0 (by omega)]
  omega

end Lemmas

section Claims

/-- Claim C1 is a code bug: constructing with a blue channel that has neither
explicit nor segmented data must fail with a missing-data error, but the
source tests the both-present condition twice for blue (lines 215 and 220),
so this construction succeeds; materialization then aborts with the
`TypeError` of expanding `undefined` (modelled as `noData`), not with the
specified construction-time missing-data error.  Red and green channels are
given valid explicit data, so every other check passes. -/
theorem C1_blue_missing_data_accepted :
    construct ⟨⟨2, 0, 8⟩, ⟨2, 0, 8⟩, ⟨2, 0, 8⟩,
        some [1, 2], some [3, 4], none, none, none, none⟩
      = .ok ⟨2, 0, 8, some [1, 2], some [3, 4], none, none, none, none⟩
    ∧ getTableFresh ⟨2, 0, 8, some [1, 2], some [3, 4], none, none, none, none⟩
      = .error .noData := by
  constructor <;> decide

/-- Claim C2 as stated is false: the program `[0,1,10, 1,3,20]` with 4
entries expands to `[10, 13, 16, 19]`, not `[10, 13, 17, 20]` — the Linear
segment rounds each value from the previously *rounded* entry
(`round(13 + 10/3) = 16`, `round(16 + 10/3) = 19`), while the claimed list
is the closed-form-per-index result the spec itself warns against. -/
theorem C2_counterexample :
    _expandSegmentedLUTData 16 4 [0, 1, 10, 1, 3, 20] = .ok [10, 13, 16, 19]
    ∧ _expandSegmentedLUTData 16 4 [0, 1, 10, 1, 3, 20] ≠ .ok [10, 13, 17, 20] := by
  constructor <;> decide

/-- Claim C2 amended: the program `[0,1,10, 1,3,20]` (Discrete: write 10
once; Linear: length 3 ending at 20) with 4 entries expands to exactly
`[10, 13, 16, 19]` under the iterative rounding rule. -/
theorem C2_amended :
    _expandSegmentedLUTData 16 4 [0, 1, 10, 1, 3, 20] = .ok [10, 13, 16, 19] := by
  decide

/-- Claim C3: a Linear segment (opcode 1) with operands `(length, endpoint)`
decoded at write cursor `o > 0` makes the decoder compute
`step = (endpoint - output[o-1]) / length` by real division and fill the
window iteratively, each entry being `round(previous stored entry + step)`
(the previous *rounded* value, not a closed form): the decoder consumes the
segment into exactly this fill, and — whenever the rounds fit the storage
width, so the typed-array store does not wrap — every stored entry equals
`Math.round` over `ℚ` of the previously stored entry plus the step. -/
theorem C3_linear_iterative_rounding (bits : ℕ) (lut0 : List ℕ) (o L k : ℕ)
    (e : ℤ) (s : ℕ) (rest : List ℤ)
    (ho : 1 ≤ o) (hL : 1 ≤ L) (hrange : o + L ≤ lut0.length)
    (hs : lut0.get? (o - 1) = some s) (hk : k < L)
    (hfit : ∀ j, j < L →
      roundFitsB bits (e - (s : ℤ), (L : ℤ))
        ((fillLinear bits lut0 (some (e - (s : ℤ), (L : ℤ))) (o : ℤ) L).get?
          (o + j - 1)) = true) :
    expandLoop bits ((1 : ℤ) :: (L : ℤ) :: e :: rest) (some (o : ℤ)) lut0
      = expandLoop bits rest (some ((o : ℤ) + (L : ℤ)))
          (fillLinear bits lut0 (some (e - (s : ℤ), (L : ℤ))) (o : ℤ) L)
    ∧ ((fillLinear bits lut0 (some (e - (s : ℤ), (L : ℤ))) (o : ℤ) L).get? (o + k)).map
          (fun q => (q : ℤ))
        = ((fillLinear bits lut0 (some (e - (s : ℤ), (L : ℤ))) (o : ℤ) L).get?
            (o + k - 1)).map
          (fun p => jsRound ((p : ℚ) + ((e : ℚ) - (s : ℚ)) / (L : ℚ))) := by
  have hget : getAtI lut0 ((o : ℤ) - 1) = lut0.get? (o - 1) := by
    unfold getAtI
    rw [if_pos (by omega)]
    congr 1
    omega
  constructor
  · rw [expandLoop]
    have hseg : segStep bits 1 (some (L : ℤ)) (some e) (some (o : ℤ)) lut0
        = .ok (some ((o : ℤ) + (L : ℤ)),
            fillLinear bits lut0 (some (e - (s : ℤ), (L : ℤ))) (o : ℤ) L) := by
      unfold segStep
      rw [if_neg (by decide), if_pos rfl]
      show Except.ok (some ((o : ℤ) + (L : ℤ)),
          fillLinear bits lut0
            (match some e, getAtI lut0 ((o : ℤ) - 1) with
              | some e, some s => some (e - (s : ℤ), (L : ℤ))
              | _, _ => none)
            (o : ℤ) ((L : ℤ)).toNat)
        = Except.ok (some ((o : ℤ) + (L : ℤ)),
            fillLinear bits lut0 (some (e - (s : ℤ), (L : ℤ))) (o : ℤ) L)
      rw [hget, hs, Int.toNat_natCast]
    rw [hseg]
  · obtain ⟨p, h1, h2⟩ :=
      fillLinear_spec bits (e - (s : ℤ), (L : ℤ)) L o lut0 ho hrange k hk
    have hfitk := hfit k hk
    rw [h1] at hfitk
    simp only [roundFitsB, decide_eq_true_eq] at hfitk
    rw [h1, h2]
    show some ((jsToUintI bits (jsRoundFrac ((p : ℕ) : ℤ) (e - (s : ℤ)) (L : ℤ)) : ℕ) : ℤ)
        = some (jsRound (((p : ℕ) : ℚ) + ((e : ℚ) - (s : ℚ)) / (L : ℚ)))
    rw [jsToUintI_of_fits hfitk.1 hfitk.2]
    rw [jsRoundFrac_eq_jsRound _ _ _ (by omega)]
    congr 2
    push_cast
    ring

/-- Witness for C3: the Linear segment of the program `[0,1,10, 1,3,20]`
(cursor 1, startpoint 10, step 10/3, three writes into a 4-entry buffer),
checked at its last window index. -/
theorem C3_witness :
    expandLoop 16 [(1 : ℤ), 3, 20] (some 1) [10, 0, 0, 0]
      = expandLoop 16 [] (some 4) (fillLinear 16 [10, 0, 0, 0] (some (10, 3)) 1 3)
    ∧ ((fillLinear 16 [10, 0, 0, 0] (some (10, 3)) 1 3).get? 3).map (fun q => (q : ℤ))
        = ((fillLinear 16 [10, 0, 0, 0] (some (10, 3)) 1 3).get? 2).map
            (fun p => jsRound ((p : ℚ) + ((20 : ℚ) - 10) / 3)) :=
  C3_linear_iterative_rounding 16 [10, 0, 0, 0] 1 3 2 20 10 [] (by decide) (by decide)
    (by decide) (by decide) (by decide) (by decide)

/-- Claim C4 as stated is false: a Discrete segment writing 3 values into a
2-entry buffer completes successfully with `[5, 5]` — the out-of-range store
at index 2 is silently discarded by typed-array semantics, and no
out-of-range error exists in the decoder. -/
theorem C4_counterexample :
    _expandSegmentedLUTData 16 2 [0, 3, 5] = .ok [5, 5] := by
  decide

/-- Claim C4 amended: writes beyond the fixed `numberOfEntries`-sized output
buffer are silently ignored rather than failing; whenever decoding completes
(no invalid opcode), the output buffer still has exactly `numberOfEntries`
entries. -/
theorem C4_amended (bits n : ℕ) (seg : List ℤ) :
    (_expandSegmentedLUTData bits n seg).map List.length
      = (_expandSegmentedLUTData bits n seg).map (fun _ => n) := by
  cases h : _expandSegmentedLUTData bits n seg with
  | error e => rfl
  | ok lut => simp [Except.map, expand_ok_length h]

/-- Claim C8: whenever the decoder reads an opcode other than 0 or 1 at a
segment boundary (any decoder state: any remaining program, cursor and
buffer), it fails — with the unsupported-feature error for opcode 2
(Indirect) and the invalid-segment error for anything else; it never skips
the segment. -/
theorem C8_bad_opcode_fails (bits : ℕ) (c : ℤ) (rest : List ℤ)
    (off : Option ℤ) (lut : List ℕ) (h0 : c ≠ 0) (h1 : c ≠ 1) :
    expandLoop bits (c :: rest) off lut
      = .error (if c = 2 then .indirectNotSupported else .invalidSegment) := by
  have hs : ∀ len val, segStep bits c len val off lut
      = .error (if c = 2 then .indirectNotSupported else .invalidSegment) := by
    intro len val
    unfold segStep
    rw [if_neg h0, if_neg h1]
    split_ifs with h2 <;> rfl
  match rest with
  | [] => rw [expandLoop, hs]; rfl
  | [l] => rw [expandLoop, hs]; rfl
  | l :: v :: rest' => rw [expandLoop, hs]

/-- Witness for C8 at a concrete input: opcode 2 (Indirect) as the second
segment of a program fails with the unsupported-feature error. -/
theorem C8_witness :
    expandLoop 16 [(2 : ℤ), 4, 7] (some 0) [0, 0] = .error .indirectNotSupported := by
  have h := C8_bad_opcode_fails 16 2 [4, 7] (some 0) [0, 0] (by decide) (by decide)
  simpa using h

/-- The rounded 16-bit resample of an in-range index is a proper integer in
`[0, 255]`. -/
theorem sample16_inRGB {lut : List ℕ} (hb : ∀ x ∈ lut, x < 2 ^ 16) {j : ℕ}
    (hj : j < lut.length) : inRGB (sample16 lut j) := by
  obtain ⟨v, hv⟩ : ∃ v, lut.get? j = some v := ⟨_, List.get?_eq_get hj⟩
  have hs : sample16 lut j = some (jsRoundFrac 0 ((v : ℤ) * 255) 65535) := by
    unfold sample16
    rw [hv]
    rfl
  obtain ⟨h0, h255⟩ := sample16_ok_bound hb hs
  rw [hs]
  exact ⟨by simp, by simpa using h0, by simpa using h255⟩

/-- An 8-bit channel entry read in range is a proper integer in `[0, 255]`. -/
theorem byte_inRGB {lut : List ℕ} (hb : ∀ x ∈ lut, x < 2 ^ 8) {j : ℕ}
    (hj : j < lut.length) : inRGB ((lut.get? j).map (fun v => (v : ℤ))) := by
  obtain ⟨v, hv⟩ : ∃ v, lut.get? j = some v := ⟨_, List.get?_eq_get hj⟩
  have hvb : v < 2 ^ 8 := hb v (List.get?_mem hv)
  rw [hv]
  refine ⟨by simp, by simp, ?_⟩
  show (v : ℤ) ≤ 255
  norm_num at hvb
  omega

/-- Claim C5 as stated is false: on a successfully constructed 16-bit table
with `numberOfEntries = 2`, `data` succeeds but its second triplet is
`(NaN, NaN, NaN)` — the 16-bit branch samples index `1 * 256 = 256`, which is
out of range for the 2-entry channel arrays, so the components are not
integers in `[0, 255]`. -/
theorem C5_counterexample :
    construct ⟨⟨2, 0, 16⟩, ⟨2, 0, 16⟩, ⟨2, 0, 16⟩, some [0, 0], some [0, 0],
        some [0, 0], none, none, none⟩
      = .ok ⟨2, 0, 16, some [0, 0], some [0, 0], some [0, 0], none, none, none⟩
    ∧ (getTableFresh ⟨2, 0, 16, some [0, 0], some [0, 0], some [0, 0],
        none, none, none⟩).map (fun tbl => tbl.get? 1)
      = .ok (some ((none, none, none) : Triplet))
    ∧ ¬ inRGB (none : Option ℤ) := by
  refine ⟨by decide, by decide, ?_⟩
  intro ⟨hne, _⟩
  exact hne rfl

/-- Claim C5 amended: every component of every triplet returned by a
successful `data` read is an integer in `[0, 255]`, for every 8-bit table,
and for 16-bit tables provided every sampled index `i * 256` (`i < 256`) is
within `numberOfEntries` (i.e. `numberOfEntries > 65280`, in particular the
full 65536); smaller 16-bit tables produce `NaN` components instead. -/
theorem C5_amended (inp : LUTInput) (t : PCLUT) (h : construct inp = .ok t)
    (h16 : t.bitsPerEntry = 16 → (65280 : ℤ) < t.numberOfEntries) :
    allInRange (getTableFresh t) := by
  obtain ⟨ht, hbits, hrl, hgl, hbl2, hrx, hgx⟩ := construct_ok_spec h
  subst ht
  simp only [mkPCLUT] at h16
  cases hres : getTableFresh (mkPCLUT inp) with
  | error e => exact trivial
  | ok tbl =>
  show ∀ trip ∈ tbl, inRGB trip.1 ∧ inRGB trip.2.1 ∧ inRGB trip.2.2
  unfold getTableFresh at hres
  simp only [mkPCLUT] at hres
  cases hr : materializeChannel inp.redDescriptor.bitsPerEntry
      (nEntries inp.redDescriptor.entries) inp.redData inp.redSegmentedData with
  | error e => rw [hr] at hres; exact absurd hres (by simp)
  | ok red =>
  cases hg : materializeChannel inp.redDescriptor.bitsPerEntry
      (nEntries inp.redDescriptor.entries) inp.greenData inp.greenSegmentedData with
  | error e => rw [hr, hg] at hres; exact absurd hres (by simp)
  | ok green =>
  cases hb : materializeChannel inp.redDescriptor.bitsPerEntry
      (nEntries inp.redDescriptor.entries) inp.blueData inp.blueSegmentedData with
  | error e => rw [hr, hg, hb] at hres; exact absurd hres (by simp)
  | ok blue =>
  rw [hr, hg, hb] at hres
  have hrn := materializeChannel_ok_length hrl hr
  have hgn := materializeChannel_ok_length hgl hg
  have hbn := materializeChannel_ok_length hbl2 hb
  have hlen : red.length = blue.length := by omega
  simp only [hlen, eq_self_iff_true, if_true] at hres
  have hrb := materializeChannel_ok_bound hr
  have hgb := materializeChannel_ok_bound hg
  have hbb := materializeChannel_ok_bound hb
  rcases hbits with hb8 | hb16
  · -- 8-bit branch
    rw [if_neg (by rw [hb8]; decide)] at hres
    rw [if_neg (by omega)] at hres
    injection hres with hres
    rw [← hres]
    intro trip htrip
    rcases List.mem_map.mp htrip with ⟨i, hir, rfl⟩
    have hin : i < (nEntries inp.redDescriptor.entries).toNat := List.mem_range.mp hir
    rw [hb8] at hrb hgb hbb
    simp only [dataWidth] at hrb hgb hbb
    norm_num at hrb hgb hbb
    exact ⟨byte_inRGB (by simpa using hrb) (by omega),
      byte_inRGB (by simpa using hgb) (by omega),
      byte_inRGB (by simpa using hbb) (by omega)⟩
  · -- 16-bit branch
    rw [if_pos hb16] at hres
    injection hres with hres
    rw [← hres]
    intro trip htrip
    rcases List.mem_map.mp htrip with ⟨i, hir, rfl⟩
    have hi256 : i < 256 := List.mem_range.mp hir
    have hn : (65280 : ℤ) < nEntries inp.redDescriptor.entries := h16 hb16
    have hj : i * 256 ≤ 65280 := by omega
    rw [hb16] at hrb hgb hbb
    simp only [dataWidth] at hrb hgb hbb
    norm_num at hrb hgb hbb
    exact ⟨sample16_inRGB (by simpa using hrb) (by omega),
      sample16_inRGB (by simpa using hgb) (by omega),
      sample16_inRGB (by simpa using hbb) (by omega)⟩

/-- Witness for the amended C5 at a concrete two-entry 8-bit table. -/
theorem C5_witness :
    allInRange (getTableFresh ⟨2, 0, 8, some [250, 3], some [8, 10],
      some [11, 12], none, none, none⟩) :=
  C5_amended
    ⟨⟨2, 0, 8⟩, ⟨2, 0, 8⟩, ⟨2, 0, 8⟩, some [250, 3], some [8, 10], some [11, 12],
      none, none, none⟩
    ⟨2, 0, 8, some [250, 3], some [8, 10], some [11, 12], none, none, none⟩
    (by decide) (fun hx => absurd hx (by decide))

/-- Claim C9: on a successfully constructed table whose first `data` read
succeeds, the first call computes the table and caches it, and a second call
served from the cache returns the identical table. -/
theorem C9_getTable_idempotent_cached (inp : LUTInput) (t : PCLUT) (r : Table)
    (h1 : construct inp = .ok t) (h2 : getTableFresh t = .ok r) :
    getTableCached t none = (.ok r, some r)
    ∧ getTableCached t (some r) = (.ok r, some r) := by
  constructor
  · unfold getTableCached
    rw [h2]
  · rfl

/-- Witness for C9 at a concrete one-entry 8-bit table. -/
theorem C9_witness :
    getTableCached ⟨1, 0, 8, some [1], some [2], some [3], none, none, none⟩ none
      = (.ok [(some 1, some 2, some 3)], some [(some 1, some 2, some 3)])
    ∧ getTableCached ⟨1, 0, 8, some [1], some [2], some [3], none, none, none⟩
        (some [(some 1, some 2, some 3)])
      = (.ok [(some 1, some 2, some 3)], some [(some 1, some 2, some 3)]) :=
  C9_getTable_idempotent_cached
    ⟨⟨1, 0, 8⟩, ⟨1, 0, 8⟩, ⟨1, 0, 8⟩, some [1], some [2], some [3], none, none, none⟩
    ⟨1, 0, 8, some [1], some [2], some [3], none, none, none⟩
    [(some 1, some 2, some 3)] (by decide) (by decide)

/-- Claim C10: on any successfully constructed table, every channel array a
materialization produces has exactly `numberOfEntries` entries (explicit data
was length-checked at construction; the decoder's buffer is allocated at that
size), so the channel-length-mismatch branch of the `data` getter is
unreachable. -/
theorem C10_length_mismatch_unreachable (inp : LUTInput) (t : PCLUT)
    (h : construct inp = .ok t) :
    channelLenOk
      (materializeChannel t.bitsPerEntry t.numberOfEntries t.redData t.redSegmentedData)
      t.numberOfEntries
    ∧ channelLenOk
      (materializeChannel t.bitsPerEntry t.numberOfEntries t.greenData t.greenSegmentedData)
      t.numberOfEntries
    ∧ channelLenOk
      (materializeChannel t.bitsPerEntry t.numberOfEntries t.blueData t.blueSegmentedData)
      t.numberOfEntries
    ∧ getTableFresh t ≠ .error .lengthMismatch := by
  obtain ⟨ht, hbits, hrl, hgl, hbl, hrx, hgx⟩ := construct_ok_spec h
  subst ht
  simp only [mkPCLUT] at hrl hgl hbl ⊢
  refine ⟨?_, ?_, ?_, ?_⟩
  · cases hm : materializeChannel inp.redDescriptor.bitsPerEntry
        (nEntries inp.redDescriptor.entries) inp.redData inp.redSegmentedData with
    | error e => exact trivial
    | ok a => exact materializeChannel_ok_length hrl hm
  · cases hm : materializeChannel inp.redDescriptor.bitsPerEntry
        (nEntries inp.redDescriptor.entries) inp.greenData inp.greenSegmentedData with
    | error e => exact trivial
    | ok a => exact materializeChannel_ok_length hgl hm
  · cases hm : materializeChannel inp.redDescriptor.bitsPerEntry
        (nEntries inp.redDescriptor.entries) inp.blueData inp.blueSegmentedData with
    | error e => exact trivial
    | ok a => exact materializeChannel_ok_length hbl hm
  · intro hbad
    unfold getTableFresh at hbad
    simp only [mkPCLUT] at hbad
    cases hr : materializeChannel inp.redDescriptor.bitsPerEntry
        (nEntries inp.redDescriptor.entries) inp.redData inp.redSegmentedData with
    | error e =>
      rw [hr] at hbad
      injection hbad with hbad
      rw [hbad] at hr
      exact materializeChannel_ne_lengthMismatch hr
    | ok red =>
    rw [hr] at hbad
    cases hg : materializeChannel inp.redDescriptor.bitsPerEntry
        (nEntries inp.redDescriptor.entries) inp.greenData inp.greenSegmentedData with
    | error e =>
      rw [hg] at hbad
      injection hbad with hbad
      rw [hbad] at hg
      exact materializeChannel_ne_lengthMismatch hg
    | ok green =>
    rw [hg] at hbad
    cases hb : materializeChannel inp.redDescriptor.bitsPerEntry
        (nEntries inp.redDescriptor.entries) inp.blueData inp.blueSegmentedData with
    | error e =>
      rw [hb] at hbad
      injection hbad with hbad
      rw [hbad] at hb
      exact materializeChannel_ne_lengthMismatch hb
    | ok blue =>
    rw [hb] at hbad
    have hrn := materializeChannel_ok_length hrl hr
    have hbn := materializeChannel_ok_length hbl hb
    have hlen : red.length = blue.length := by omega
    simp only [hlen, eq_self_iff_true, if_true] at hbad
    split_ifs at hbad <;>
      first
        | exact Except.noConfusion hbad
        | (injection hbad with hbad; exact MatError.noConfusion hbad)

/-- Claim C7: for a successfully constructed 8-bit table, `data` succeeds,
has exactly `numberOfEntries` triplets (descriptor value 0 meaning 65536, as
recorded in `numberOfEntries`), and its `i`-th triplet is the direct
per-index zip of the three materialized channel arrays. -/
theorem C7_eight_bit_zip (inp : LUTInput) (t : PCLUT) (red green blue : List ℕ)
    (i : ℕ) (h : construct inp = .ok t) (hb8 : t.bitsPerEntry = 8)
    (hr : materializeChannel t.bitsPerEntry t.numberOfEntries t.redData
        t.redSegmentedData = .ok red)
    (hg : materializeChannel t.bitsPerEntry t.numberOfEntries t.greenData
        t.greenSegmentedData = .ok green)
    (hbl : materializeChannel t.bitsPerEntry t.numberOfEntries t.blueData
        t.blueSegmentedData = .ok blue)
    (hi : i < t.numberOfEntries.toNat) :
    (getTableFresh t).map List.length = .ok t.numberOfEntries.toNat
    ∧ t.numberOfEntries
        = (if inp.redDescriptor.entries = 0 then 65536 else inp.redDescriptor.entries)
    ∧ (getTableFresh t).map (fun tbl => tbl.get? i)
        = .ok (some ((red.get? i).map (fun v => (v : ℤ)),
            (green.get? i).map (fun v => (v : ℤ)),
            (blue.get? i).map (fun v => (v : ℤ)))) := by
  obtain ⟨ht, hbits, hrl, hgl, hbl2, hrx, hgx⟩ := construct_ok_spec h
  subst ht
  simp only [mkPCLUT] at hb8 hr hg hbl hi ⊢
  have hrn := materializeChannel_ok_length hrl hr
  have hbn := materializeChannel_ok_length hbl2 hbl
  have hlen : red.length = blue.length := by omega
  have hn0 : ¬(nEntries inp.redDescriptor.entries < 0) := by omega
  have hb16 : ¬(inp.redDescriptor.bitsPerEntry = 16) := by rw [hb8]; decide
  refine ⟨?_, ?_, ?_⟩
  · unfold getTableFresh
    simp only [mkPCLUT, hr, hg, hbl, hlen, eq_self_iff_true, if_true,
      if_neg hb16, if_neg hn0, Except.map]
    rw [List.length_map, List.length_range]
  · simp only [mkPCLUT, nEntries]
    norm_num
  · unfold getTableFresh
    simp only [mkPCLUT, hr, hg, hbl, hlen, eq_self_iff_true, if_true,
      if_neg hb16, if_neg hn0, Except.map]
    rw [List.get?_map, List.get?_range hi]
    rfl

/-- Witness for C7 at a concrete two-entry 8-bit table sampled at index 1. -/
theorem C7_witness :
    (getTableFresh ⟨2, 0, 8, some [7, 9], some [8, 10], some [11, 12],
        none, none, none⟩).map List.length = .ok ((2 : ℤ)).toNat
    ∧ (2 : ℤ) = (if (2 : ℤ) = 0 then 65536 else 2)
    ∧ (getTableFresh ⟨2, 0, 8, some [7, 9], some [8, 10], some [11, 12],
        none, none, none⟩).map (fun tbl => tbl.get? 1)
        = .ok (some (([7, 9].get? 1).map (fun v => (v : ℤ)),
            ([8, 10].get? 1).map (fun v => (v : ℤ)),
            ([11, 12].get? 1).map (fun v => (v : ℤ)))) :=
  C7_eight_bit_zip
    ⟨⟨2, 0, 8⟩, ⟨2, 0, 8⟩, ⟨2, 0, 8⟩, some [7, 9], some [8, 10], some [11, 12],
      none, none, none⟩
    ⟨2, 0, 8, some [7, 9], some [8, 10], some [11, 12], none, none, none⟩
    [7, 9] [8, 10] [11, 12] 1 (by decide) (by decide) (by decide) (by decide)
    (by decide) (by decide)

/-- Claim C6: for a successfully constructed 16-bit table, `data` succeeds
and has exactly 256 triplets regardless of `numberOfEntries`; its `i`-th
triplet samples each materialized channel at index `i * 256` and rounds the
`Rescale` of the sampled value from `[0, 65535]` to `[0, 255]`. -/
theorem C6_sixteen_bit_resample (inp : LUTInput) (t : PCLUT)
    (red green blue : List ℕ) (i : ℕ) (h : construct inp = .ok t)
    (hb16 : t.bitsPerEntry = 16)
    (hr : materializeChannel t.bitsPerEntry t.numberOfEntries t.redData
        t.redSegmentedData = .ok red)
    (hg : materializeChannel t.bitsPerEntry t.numberOfEntries t.greenData
        t.greenSegmentedData = .ok green)
    (hbl : materializeChannel t.bitsPerEntry t.numberOfEntries t.blueData
        t.blueSegmentedData = .ok blue)
    (hi : i < 256) :
    (getTableFresh t).map List.length = .ok 256
    ∧ (getTableFresh t).map (fun tbl => tbl.get? i)
        = .ok (some (sample16 red (i * 256), sample16 green (i * 256),
            sample16 blue (i * 256)))
    ∧ sample16 red (i * 256)
        = (red.get? (i * 256)).map (fun v => jsRound (rescaleQ (v : ℚ) 0 65535 0 255)) := by
  obtain ⟨ht, hbits, hrl, hgl, hbl2, hrx, hgx⟩ := construct_ok_spec h
  subst ht
  simp only [mkPCLUT] at hb16 hr hg hbl ⊢
  have hrn := materializeChannel_ok_length hrl hr
  have hbn := materializeChannel_ok_length hbl2 hbl
  have hlen : red.length = blue.length := by omega
  refine ⟨?_, ?_, ?_⟩
  · unfold getTableFresh
    simp only [mkPCLUT, hr, hg, hbl, hlen, eq_self_iff_true, if_true,
      if_pos hb16, Except.map]
    rw [List.length_map, List.length_range]
  · unfold getTableFresh
    simp only [mkPCLUT, hr, hg, hbl, hlen, eq_self_iff_true, if_true,
      if_pos hb16, Except.map]
    rw [List.get?_map, List.get?_range hi]
    rfl
  · unfold sample16
    cases hv : red.get? (i * 256) with
    | none => rfl
    | some v =>
      show some (jsRoundFrac 0 ((v : ℤ) * 255) 65535)
        = some (jsRound (rescaleQ (v : ℚ) 0 65535 0 255))
      rw [jsRoundFrac_eq_roundRescale]

/-- Witness for C6 at a concrete two-entry 16-bit table sampled at index 1
(the sampled source index 256 is out of range, so the components are `NaN`);
the output length is 256 even though `numberOfEntries = 2`. -/
theorem C6_witness :
    (getTableFresh ⟨2, 0, 16, some [0, 0], some [0, 0], some [0, 0],
        none, none, none⟩).map List.length = .ok 256
    ∧ (getTableFresh ⟨2, 0, 16, some [0, 0], some [0, 0], some [0, 0],
        none, none, none⟩).map (fun tbl => tbl.get? 1)
        = .ok (some (sample16 [0, 0] 256, sample16 [0, 0] 256, sample16 [0, 0] 256))
    ∧ sample16 [0, 0] 256
        = ([0, 0].get? 256).map (fun v => jsRound (rescaleQ (v : ℚ) 0 65535 0 255)) :=
  C6_sixteen_bit_resample
    ⟨⟨2, 0, 16⟩, ⟨2, 0, 16⟩, ⟨2, 0, 16⟩, some [0, 0], some [0, 0], some [0, 0],
      none, none, none⟩
    ⟨2, 0, 16, some [0, 0], some [0, 0], some [0, 0], none, none, none⟩
    [0, 0] [0, 0] [0, 0] 1 (by decide) (by decide) (by decide) (by decide)
    (by decide) (by decide)

/-- Witness for C10 at a concrete two-entry 8-bit table. -/
theorem C10_witness :
    channelLenOk (materializeChannel 8 2 (some [1, 2]) none) 2
    ∧ channelLenOk (materializeChannel 8 2 (some [3, 4]) none) 2
    ∧ channelLenOk (materializeChannel 8 2 (some [5, 6]) none) 2
    ∧ getTableFresh ⟨2, 0, 8, some [1, 2], some [3, 4], some [5, 6], none, none, none⟩
        ≠ .error .lengthMismatch :=
  C10_length_mismatch_unreachable
    ⟨⟨2, 0, 8⟩, ⟨2, 0, 8⟩, ⟨2, 0, 8⟩, some [1, 2], some [3, 4], some [5, 6],
      none, none, none⟩
    ⟨2, 0, 8, some [1, 2], some [3, 4], some [5, 6], none, none, none⟩
    (by decide)

end Claims

end DicomColor
